import Mathlib

/-!
Shallow embedding of the ring buffer of tinybit/ffmpeg_code_examples
(src/ring_buffer.hpp, src/ring_buffer.cpp) together with the
consumer-side read callback of src/03-reading-from-srt.cpp, and proofs
of the specification's claims about them.

Bytes are modelled as natural numbers; the internal `char` storage is a
`List Nat`; `size_t` values are natural numbers (all arithmetic performed
by the code stays within bounds under the buffer invariant, so `Nat`
subtraction agrees with `size_t` subtraction wherever it is used).
`memcpy(dst + off, src, len)` is modelled by `memcpyAt`, which overwrites
the `len`-byte region of `dst` starting at `off` with `src`.
-/

/-- Largest supported capacity, from ring_buffer.hpp:
`std::numeric_limits<size_t>::max() - 128` with 64-bit `size_t`. -/
def RingBufferMaxSize : Nat := 2 ^ 64 - 1 - 128

/-- Sentinel returned by `write` on a full buffer, from ring_buffer.hpp:
`std::numeric_limits<size_t>::max() - 127` with 64-bit `size_t`. -/
def RingBufferErrOutOfSpace : Nat := 2 ^ 64 - 1 - 127

/-- The ring buffer state: fields of class RingBuffer (ring_buffer.hpp). -/
structure RingBuffer where
  m_head : Nat
  m_tail : Nat
  m_size : Nat
  m_capacity : Nat
  m_buff : List Nat
  deriving Repr, DecidableEq

/-- Model of `memcpy(dst + off, src, src.length)`: overwrite the region
`[off, off + src.length)` of `dst` with the bytes of `src`, leaving every
other position unchanged.  The result has the length of `dst`. -/
def memcpyAt (dst : List Nat) (off : Nat) (src : List Nat) : List Nat :=
  (List.range dst.length).map fun i =>
    if off ≤ i ∧ i < off + src.length then src.getD (i - off) 0 else dst.getD i 0

/-- RingBuffer::RingBuffer (ring_buffer.cpp lines 13-31): rejects
`capacity >= RingBufferMaxSize` with an `std::invalid_argument` carrying the
message built in the constructor, otherwise allocates `capacity` bytes of
storage and starts with `head = tail = size = 0`.  (A `std::bad_alloc` from
`new` is re-thrown as a `std::runtime_error`; allocation is assumed to
succeed in this model.) -/
def RingBuffer.create (capacity : Nat) : Except String RingBuffer :=
  if RingBufferMaxSize ≤ capacity then
    Except.error ("requested creation of ring buffer with capacity "
      ++ toString capacity ++ " which is larger than supported "
      ++ toString RingBufferMaxSize)
  else
    Except.ok (RingBuffer.mk 0 0 0 capacity (List.replicate capacity 0))

/-- RingBuffer::size (ring_buffer.cpp lines 37-39). -/
def RingBuffer.size (rb : RingBuffer) : Nat := rb.m_size

/-- RingBuffer::capacity (ring_buffer.cpp lines 41-43). -/
def RingBuffer.capacity (rb : RingBuffer) : Nat := rb.m_capacity

/-- RingBuffer::avail (ring_buffer.cpp lines 45-47). -/
def RingBuffer.avail (rb : RingBuffer) : Nat := rb.m_capacity - rb.m_size

/-- RingBuffer::buf (ring_buffer.cpp lines 49-51): returns the internal
storage pointer, modelled as the storage list itself. -/
def RingBuffer.buf (rb : RingBuffer) : List Nat := rb.m_buff

/-- RingBuffer::str (ring_buffer.cpp lines 53-55):
`std::string(m_buff, m_capacity)`, i.e. the first `m_capacity` bytes of the
internal storage. -/
def RingBuffer.str (rb : RingBuffer) : List Nat := rb.m_buff.take rb.m_capacity

/-- RingBuffer::write (ring_buffer.cpp lines 57-90).  Returns the updated
buffer and the `size_t` return value of the C++ function. -/
def RingBuffer.write (rb : RingBuffer) (data : List Nat) (sz0 : Nat) :
    RingBuffer × Nat :=
  if sz0 = 0 then (rb, 0)
  else
    let available_space := rb.m_capacity - rb.m_size
    if available_space = 0 then (rb, RingBufferErrOutOfSpace)
    else
      let sz := min sz0 available_space
      if sz ≤ rb.m_capacity - rb.m_tail then
        let buff := memcpyAt rb.m_buff rb.m_tail (data.take sz)
        let tail0 := rb.m_tail + sz
        let tail1 := if tail0 = rb.m_capacity then 0 else tail0
        ({ rb with m_buff := buff, m_tail := tail1, m_size := rb.m_size + sz }, sz)
      else
        let size_1 := rb.m_capacity - rb.m_tail
        let buff1 := memcpyAt rb.m_buff rb.m_tail (data.take size_1)
        let size_2 := sz - size_1
        let buff2 := memcpyAt buff1 0 ((data.drop size_1).take size_2)
        ({ rb with m_buff := buff2, m_tail := size_2, m_size := rb.m_size + sz }, sz)

/-- RingBuffer::read (ring_buffer.cpp lines 92-120).  Returns the updated
buffer, the bytes copied out to the destination, and the `size_t` return
value of the C++ function. -/
def RingBuffer.read (rb : RingBuffer) (sz0 : Nat) :
    RingBuffer × List Nat × Nat :=
  if sz0 = 0 then (rb, [], 0)
  else
    let sz := min sz0 rb.m_size
    if sz ≤ rb.m_capacity - rb.m_head then
      let out := (rb.m_buff.drop rb.m_head).take sz
      let head0 := rb.m_head + sz
      let head1 := if head0 = rb.m_capacity then 0 else head0
      ({ rb with m_head := head1, m_size := rb.m_size - sz }, out, sz)
    else
      let size_1 := rb.m_capacity - rb.m_head
      let out1 := (rb.m_buff.drop rb.m_head).take size_1
      let size_2 := sz - size_1
      let out2 := rb.m_buff.take size_2
      ({ rb with m_head := size_2, m_size := rb.m_size - sz }, out1 ++ out2, sz)

/-- Well-formedness invariant of a ring buffer state: the storage has
exactly `capacity` bytes, `size ≤ capacity`, `head` and `tail` are in
`[0, capacity)`, and `tail` sits `size` positions after `head` modulo
`capacity`. -/
def RingBuffer.WF (rb : RingBuffer) : Prop :=
  rb.m_buff.length = rb.m_capacity ∧
  rb.m_size ≤ rb.m_capacity ∧
  rb.m_head < rb.m_capacity ∧
  rb.m_tail < rb.m_capacity ∧
  rb.m_tail = (rb.m_head + rb.m_size) % rb.m_capacity

instance (rb : RingBuffer) : Decidable rb.WF := by
  unfold RingBuffer.WF; infer_instance

/-- Abstraction function: the logical FIFO contents of the buffer, i.e. the
`size` stored bytes starting at `head` and wrapping around the end of the
physical storage. -/
def RingBuffer.contents (rb : RingBuffer) : List Nat :=
  (List.range rb.m_size).map fun i =>
    rb.m_buff.getD ((rb.m_head + i) % rb.m_capacity) 0

/-- States reachable from a freshly constructed RingBuffer by sequences of
write and read calls (write calls restricted to the defined behaviour of
`memcpy`: at least `sz0` bytes must exist behind the data pointer). -/
inductive Reachable : RingBuffer → Prop where
  | init (capacity : Nat) (rb : RingBuffer)
      (h : RingBuffer.create capacity = Except.ok rb) : Reachable rb
  | wstep (rb : RingBuffer) (data : List Nat) (sz0 : Nat)
      (h : Reachable rb) (hd : sz0 ≤ data.length) : Reachable (rb.write data sz0).1
  | rstep (rb : RingBuffer) (sz0 : Nat)
      (h : Reachable rb) : Reachable (rb.read sz0).1

/-- One call in an interleaved sequence of write and read calls. -/
inductive RBOp where
  | wr (data : List Nat) (sz0 : Nat)
  | rd (sz0 : Nat)
  deriving Repr, DecidableEq

/-- Run a sequence of calls on a buffer; returns the final buffer, the
concatenation of the byte sequences passed to the writes, and the
concatenation of the byte sequences returned by the reads. -/
def runOps (rb : RingBuffer) : List RBOp → RingBuffer × List Nat × List Nat
  | [] => (rb, [], [])
  | RBOp.wr data sz0 :: ops =>
      let r := runOps (rb.write data sz0).1 ops
      (r.1, data.take sz0 ++ r.2.1, r.2.2)
  | RBOp.rd sz0 :: ops =>
      let r := runOps (rb.read sz0).1 ops
      (r.1, r.2.1, (rb.read sz0).2.1 ++ r.2.2)

/-- No write in the sequence overflows: every write requests at most the
space available at that moment (and reads at most the bytes behind its
data pointer). -/
def fitsAll (rb : RingBuffer) : List RBOp → Bool
  | [] => true
  | RBOp.wr data sz0 :: ops =>
      decide (sz0 ≤ data.length) && decide (sz0 ≤ rb.m_capacity - rb.m_size)
        && fitsAll (rb.write data sz0).1 ops
  | RBOp.rd sz0 :: ops => fitsAll (rb.read sz0).1 ops

/-- Model of readFunction (src/03-reading-from-srt.cpp lines 60-79) as a
single decision step over the shared state it inspects under the lock: the
global `done` flag and the ring buffer.  `none` models the call blocking on
the condition variable (`cond.wait`) because data has not arrived yet;
`some (ret, out, buff2)` models the call returning `ret` with `out` copied
into the avio buffer and the ring buffer left in state `buff2`. -/
def readFunction (done : Bool) (buff : RingBuffer) (buf_size : Nat) :
    Option (Nat × List Nat × RingBuffer) :=
  if buff.size = 0 then
    if done then some (0, [], buff) else none
  else
    let r := buff.read buf_size
    some (r.2.2, r.2.1, r.1)

lemma getD_map_range (f : Nat → Nat) {n i : Nat} (h : i < n) :
    ((List.range n).map f).getD i 0 = f i := by
  have hl : i < ((List.range n).map f).length := by simp [h]
  rw [List.getD_eq_getElem _ _ hl]
  simp

lemma memcpyAt_length (dst : List Nat) (off : Nat) (src : List Nat) :
    (memcpyAt dst off src).length = dst.length := by
  simp [memcpyAt]

lemma memcpyAt_getD (dst : List Nat) (off : Nat) (src : List Nat) {i : Nat}
    (h : i < dst.length) :
    (memcpyAt dst off src).getD i 0 =
      if off ≤ i ∧ i < off + src.length then src.getD (i - off) 0
      else dst.getD i 0 := by
  unfold memcpyAt
  exact getD_map_range _ h

lemma contents_length (rb : RingBuffer) : rb.contents.length = rb.m_size := by
  simp [RingBuffer.contents]

lemma contents_getD (rb : RingBuffer) {i : Nat} (h : i < rb.m_size) :
    rb.contents.getD i 0 = rb.m_buff.getD ((rb.m_head + i) % rb.m_capacity) 0 :=
  getD_map_range _ h

lemma eq_of_getD {l1 l2 : List Nat} (hl : l1.length = l2.length)
    (h : ∀ i, i < l1.length → l1.getD i 0 = l2.getD i 0) : l1 = l2 := by
  apply List.ext_getElem hl
  intro i h1 h2
  have hx := h i h1
  rwa [List.getD_eq_getElem _ _ h1, List.getD_eq_getElem _ _ h2] at hx

lemma getD_append_left (l1 l2 : List Nat) {i : Nat} (h : i < l1.length) :
    (l1 ++ l2).getD i 0 = l1.getD i 0 := by
  have h2 : i < (l1 ++ l2).length := by simp; omega
  rw [List.getD_eq_getElem _ _ h2, List.getD_eq_getElem _ _ h]
  exact List.getElem_append_left h

lemma getD_append_right (l1 l2 : List Nat) {i : Nat} (h : l1.length ≤ i)
    (h2 : i < l1.length + l2.length) :
    (l1 ++ l2).getD i 0 = l2.getD (i - l1.length) 0 := by
  have ha : i < (l1 ++ l2).length := by simp; omega
  have hb : i - l1.length < l2.length := by omega
  rw [List.getD_eq_getElem _ _ ha, List.getD_eq_getElem _ _ hb]
  exact List.getElem_append_right h

lemma getD_take (l : List Nat) {n i : Nat} (h : i < n) (h2 : i < l.length) :
    (l.take n).getD i 0 = l.getD i 0 := by
  have ha : i < (l.take n).length := by simp; omega
  rw [List.getD_eq_getElem _ _ ha, List.getD_eq_getElem _ _ h2]
  simp

lemma getD_drop (l : List Nat) {n i : Nat} (h : n + i < l.length) :
    (l.drop n).getD i 0 = l.getD (n + i) 0 := by
  have ha : i < (l.drop n).length := by simp; omega
  rw [List.getD_eq_getElem _ _ ha, List.getD_eq_getElem _ _ h]
  simp

lemma take_eq_map_range (l : List Nat) {n : Nat} (h : n ≤ l.length) :
    l.take n = (List.range n).map fun j => l.getD j 0 := by
  apply eq_of_getD
  · simp; omega
  · intro i hi
    have hi2 : i < n := by simp at hi; omega
    rw [getD_take l hi2 (by omega), getD_map_range _ hi2]

lemma mod_inj {a b c : Nat} (ha : a < c) (hb : b < c) (h : a % c = b % c) :
    a = b := by
  rwa [Nat.mod_eq_of_lt ha, Nat.mod_eq_of_lt hb] at h

lemma no_hit (rb : RingBuffer) (hwf : rb.WF) {n i j : Nat}
    (hin : rb.m_size + n ≤ rb.m_capacity) (hi : i < rb.m_size) (hj : j < n)
    (he : (rb.m_head + i) % rb.m_capacity = (rb.m_tail + j) % rb.m_capacity) :
    False := by
  obtain ⟨hb, hsz, hh, ht, htl⟩ := hwf
  have h1 : (rb.m_tail + j) % rb.m_capacity
      = (rb.m_head + (rb.m_size + j)) % rb.m_capacity := by
    rw [htl, Nat.mod_add_mod, Nat.add_assoc]
  rw [h1] at he
  have h2 : i % rb.m_capacity = (rb.m_size + j) % rb.m_capacity :=
    Nat.ModEq.add_left_cancel' rb.m_head he
  have h3 : i = rb.m_size + j := by
    rw [Nat.mod_eq_of_lt (by omega), Nat.mod_eq_of_lt (by omega)] at h2
    exact h2
  omega

lemma write_eq_one (rb : RingBuffer) (data : List Nat) (sz0 : Nat)
    (hs : ¬ sz0 = 0) (ha : ¬ rb.m_capacity - rb.m_size = 0)
    (hbr : min sz0 (rb.m_capacity - rb.m_size) ≤ rb.m_capacity - rb.m_tail) :
    rb.write data sz0 =
      ({ rb with
          m_buff := memcpyAt rb.m_buff rb.m_tail
            (data.take (min sz0 (rb.m_capacity - rb.m_size))),
          m_tail := if rb.m_tail + min sz0 (rb.m_capacity - rb.m_size) = rb.m_capacity
            then 0 else rb.m_tail + min sz0 (rb.m_capacity - rb.m_size),
          m_size := rb.m_size + min sz0 (rb.m_capacity - rb.m_size) },
        min sz0 (rb.m_capacity - rb.m_size)) := by
  simp only [RingBuffer.write, if_neg hs, if_neg ha, if_pos hbr]

lemma write_eq_two (rb : RingBuffer) (data : List Nat) (sz0 : Nat)
    (hs : ¬ sz0 = 0) (ha : ¬ rb.m_capacity - rb.m_size = 0)
    (hbr : ¬ min sz0 (rb.m_capacity - rb.m_size) ≤ rb.m_capacity - rb.m_tail) :
    rb.write data sz0 =
      ({ rb with
          m_buff := memcpyAt
            (memcpyAt rb.m_buff rb.m_tail (data.take (rb.m_capacity - rb.m_tail))) 0
            ((data.drop (rb.m_capacity - rb.m_tail)).take
              (min sz0 (rb.m_capacity - rb.m_size) - (rb.m_capacity - rb.m_tail))),
          m_tail := min sz0 (rb.m_capacity - rb.m_size) - (rb.m_capacity - rb.m_tail),
          m_size := rb.m_size + min sz0 (rb.m_capacity - rb.m_size) },
        min sz0 (rb.m_capacity - rb.m_size)) := by
  simp only [RingBuffer.write, if_neg hs, if_neg ha, if_neg hbr]

lemma read_eq_one (rb : RingBuffer) (sz0 : Nat)
    (hs : ¬ sz0 = 0) (hbr : min sz0 rb.m_size ≤ rb.m_capacity - rb.m_head) :
    rb.read sz0 =
      ({ rb with
          m_head := if rb.m_head + min sz0 rb.m_size = rb.m_capacity
            then 0 else rb.m_head + min sz0 rb.m_size,
          m_size := rb.m_size - min sz0 rb.m_size },
        (rb.m_buff.drop rb.m_head).take (min sz0 rb.m_size),
        min sz0 rb.m_size) := by
  simp only [RingBuffer.read, if_neg hs, if_pos hbr]

lemma read_eq_two (rb : RingBuffer) (sz0 : Nat)
    (hs : ¬ sz0 = 0) (hbr : ¬ min sz0 rb.m_size ≤ rb.m_capacity - rb.m_head) :
    rb.read sz0 =
      ({ rb with
          m_head := min sz0 rb.m_size - (rb.m_capacity - rb.m_head),
          m_size := rb.m_size - min sz0 rb.m_size },
        (rb.m_buff.drop rb.m_head).take (rb.m_capacity - rb.m_head)
          ++ rb.m_buff.take (min sz0 rb.m_size - (rb.m_capacity - rb.m_head)),
        min sz0 rb.m_size) := by
  simp only [RingBuffer.read, if_neg hs, if_neg hbr]

lemma contents_mk_length (h t s c : Nat) (buf : List Nat) :
    (RingBuffer.mk h t s c buf).contents.length = s :=
  contents_length _

lemma contents_mk_getD (h t s c : Nat) (buf : List Nat) {i : Nat} (hi : i < s) :
    (RingBuffer.mk h t s c buf).contents.getD i 0 = buf.getD ((h + i) % c) 0 :=
  contents_getD _ hi

theorem write_spec (rb : RingBuffer) (data : List Nat) (sz0 : Nat) (n : Nat)
    (hwf : rb.WF) (hs : 0 < sz0) (ha : 0 < rb.m_capacity - rb.m_size)
    (hd : sz0 ≤ data.length) (hn : n = min sz0 (rb.m_capacity - rb.m_size)) :
    (rb.write data sz0).2 = n ∧
    (rb.write data sz0).1.m_head = rb.m_head ∧
    (rb.write data sz0).1.m_capacity = rb.m_capacity ∧
    (rb.write data sz0).1.m_tail = (rb.m_tail + n) % rb.m_capacity ∧
    (rb.write data sz0).1.m_size = rb.m_size + n ∧
    (rb.write data sz0).1.m_buff.length = rb.m_buff.length ∧
    (rb.write data sz0).1.WF ∧
    (rb.write data sz0).1.contents = rb.contents ++ data.take n := by
  obtain ⟨hb, hszc, hh, ht, htl⟩ := hwf
  have hcap : 0 < rb.m_capacity := by omega
  have hns : n ≤ sz0 := by omega
  have hna : n ≤ rb.m_capacity - rb.m_size := by omega
  have hnpos : 0 < n := by omega
  have hnd : n ≤ data.length := le_trans hns hd
  have hsn : rb.m_size + n ≤ rb.m_capacity := by omega
  by_cases hbr : min sz0 (rb.m_capacity - rb.m_size) ≤ rb.m_capacity - rb.m_tail
  · -- branch 1: single contiguous copy
    rw [write_eq_one rb data sz0 (by omega) (by omega) hbr, ← hn]
    have hbr' : n ≤ rb.m_capacity - rb.m_tail := by omega
    have htn : rb.m_tail + n ≤ rb.m_capacity := by omega
    have htail2 : (if rb.m_tail + n = rb.m_capacity then 0 else rb.m_tail + n)
        = (rb.m_tail + n) % rb.m_capacity := by
      by_cases he : rb.m_tail + n = rb.m_capacity
      · rw [if_pos he, he, Nat.mod_self]
      · rw [if_neg he, Nat.mod_eq_of_lt (by omega)]
    have htake : (data.take n).length = n := by simp; omega
    refine ⟨rfl, rfl, rfl, htail2, rfl, by simp [memcpyAt_length, hb], ?_, ?_⟩
    · -- WF of result
      refine ⟨by simp [memcpyAt_length, hb], by simpa using hsn, hh, ?_, ?_⟩
      · show (if rb.m_tail + n = rb.m_capacity then 0 else rb.m_tail + n) < rb.m_capacity
        rw [htail2]
        exact Nat.mod_lt _ hcap
      · show (if rb.m_tail + n = rb.m_capacity then 0 else rb.m_tail + n) = _
        rw [htail2, htl, Nat.mod_add_mod, Nat.add_assoc]
    · -- contents
      apply eq_of_getD
      · rw [contents_mk_length]
        simp [contents_length]
        omega
      · intro i hi
        rw [contents_mk_length] at hi
        rw [contents_mk_getD _ _ _ _ _ hi]
        have hpos : (rb.m_head + i) % rb.m_capacity < rb.m_buff.length := by
          rw [hb]; exact Nat.mod_lt _ hcap
        rw [memcpyAt_getD _ _ _ hpos, htake]
        by_cases hi2 : i < rb.m_size
        · rw [if_neg ?_]
          · rw [getD_append_left _ _ (by rw [contents_length]; omega),
              contents_getD rb hi2]
          · rintro ⟨h1, h2⟩
            have hj : (rb.m_head + i) % rb.m_capacity - rb.m_tail < n := by omega
            apply no_hit rb ⟨hb, hszc, hh, ht, htl⟩ hsn hi2 hj
            rw [Nat.mod_eq_of_lt (a := rb.m_tail + _) (by omega)]
            omega
        · have hj : i - rb.m_size < n := by omega
          have hposer : (rb.m_tail + (i - rb.m_size)) % rb.m_capacity
              = (rb.m_head + i) % rb.m_capacity := by
            rw [htl, Nat.mod_add_mod]
            congr 1
            omega
          have hlt : rb.m_tail + (i - rb.m_size) < rb.m_capacity := by omega
          rw [Nat.mod_eq_of_lt hlt] at hposer
          rw [← hposer, if_pos (by omega)]
          have heq2 : rb.m_tail + (i - rb.m_size) - rb.m_tail = i - rb.m_size := by omega
          rw [heq2, getD_take data hj (by omega)]
          rw [getD_append_right _ _ (by rw [contents_length]; omega)
            (by rw [contents_length, htake]; omega), contents_length]
          exact (getD_take data hj (by omega)).symm
  · -- branch 2: split copy wrapping around the end of storage
    rw [write_eq_two rb data sz0 (by omega) (by omega) hbr, ← hn]
    rw [← hn] at hbr
    have hbr2 : rb.m_capacity - rb.m_tail < n := by omega
    have hs1 : 0 < rb.m_capacity - rb.m_tail := by omega
    have hs2t : n - (rb.m_capacity - rb.m_tail) ≤ rb.m_tail := by omega
    have htail2 : (rb.m_tail + n) % rb.m_capacity = n - (rb.m_capacity - rb.m_tail) := by
      rw [Nat.mod_eq_sub_mod (by omega), Nat.mod_eq_of_lt (by omega)]
      omega
    have htks1 : (data.take (rb.m_capacity - rb.m_tail)).length
        = rb.m_capacity - rb.m_tail := by simp; omega
    have hlen2 : ((data.drop (rb.m_capacity - rb.m_tail)).take
        (n - (rb.m_capacity - rb.m_tail))).length = n - (rb.m_capacity - rb.m_tail) := by
      simp
      omega
    refine ⟨rfl, rfl, rfl, htail2.symm, rfl,
      by simp [memcpyAt_length, hb], ?_, ?_⟩
    · -- WF of result
      refine ⟨by simp [memcpyAt_length, hb], by simpa using hsn, hh,
        (by show n - (rb.m_capacity - rb.m_tail) < rb.m_capacity; omega), ?_⟩
      show n - (rb.m_capacity - rb.m_tail) = _
      rw [← htail2, htl, Nat.mod_add_mod, Nat.add_assoc]
    · -- contents
      apply eq_of_getD
      · rw [contents_mk_length]
        simp [contents_length]
        omega
      · intro i hi
        rw [contents_mk_length] at hi
        rw [contents_mk_getD _ _ _ _ _ hi]
        have hposc : (rb.m_head + i) % rb.m_capacity < rb.m_capacity :=
          Nat.mod_lt _ hcap
        have hpos : (rb.m_head + i) % rb.m_capacity
            < (memcpyAt rb.m_buff rb.m_tail
               (data.take (rb.m_capacity - rb.m_tail))).length := by
          rw [memcpyAt_length, hb]; exact hposc
        rw [memcpyAt_getD _ _ _ hpos, hlen2,
          memcpyAt_getD _ _ _ (by rw [hb]; exact hposc), htks1]
        by_cases hi2 : i < rb.m_size
        · rw [if_neg ?_, if_neg ?_]
          · rw [getD_append_left _ _ (by rw [contents_length]; omega),
              contents_getD rb hi2]
          · -- position not in the tail-to-end region
            rintro ⟨h1, h2⟩
            have hj : (rb.m_head + i) % rb.m_capacity - rb.m_tail
                < rb.m_capacity - rb.m_tail := by omega
            apply no_hit rb ⟨hb, hszc, hh, ht, htl⟩ hsn hi2 (by omega :
              (rb.m_head + i) % rb.m_capacity - rb.m_tail < n)
            rw [Nat.mod_eq_of_lt (a := rb.m_tail + _) (by omega)]
            omega
          · -- position not in the wrapped region at the start
            rintro ⟨h1, h2⟩
            have hj : rb.m_capacity - rb.m_tail + (rb.m_head + i) % rb.m_capacity
                < n := by omega
            apply no_hit rb ⟨hb, hszc, hh, ht, htl⟩ hsn hi2 hj
            have : rb.m_tail + (rb.m_capacity - rb.m_tail
                + (rb.m_head + i) % rb.m_capacity)
                = rb.m_capacity + (rb.m_head + i) % rb.m_capacity := by omega
            rw [this, Nat.add_mod_left]
            exact (Nat.mod_eq_of_lt hposc).symm
        · have hj : i - rb.m_size < n := by omega
          have hposer : (rb.m_tail + (i - rb.m_size)) % rb.m_capacity
              = (rb.m_head + i) % rb.m_capacity := by
            rw [htl, Nat.mod_add_mod]
            congr 1
            omega
          by_cases hj1 : i - rb.m_size < rb.m_capacity - rb.m_tail
          · have hlt : rb.m_tail + (i - rb.m_size) < rb.m_capacity := by omega
            rw [Nat.mod_eq_of_lt hlt] at hposer
            rw [← hposer, if_neg (by omega), if_pos (by omega)]
            have heq2 : rb.m_tail + (i - rb.m_size) - rb.m_tail = i - rb.m_size := by
              omega
            rw [heq2, getD_take data hj1 (by omega)]
            rw [getD_append_right _ _ (by rw [contents_length]; omega)
              (by rw [contents_length]; simp; omega), contents_length]
            exact (getD_take data hj (by omega)).symm
          · have hposv : (rb.m_tail + (i - rb.m_size)) % rb.m_capacity
                = i - rb.m_size - (rb.m_capacity - rb.m_tail) := by
              rw [Nat.mod_eq_sub_mod (by omega), Nat.mod_eq_of_lt (by omega)]
              omega
            rw [hposv] at hposer
            rw [← hposer, if_pos (by omega)]
            rw [Nat.sub_zero, getD_take _ (by omega :
                i - rb.m_size - (rb.m_capacity - rb.m_tail)
                  < n - (rb.m_capacity - rb.m_tail))
              (by simp; omega), getD_drop _ (by omega)]
            have heq3 : rb.m_capacity - rb.m_tail
                + (i - rb.m_size - (rb.m_capacity - rb.m_tail)) = i - rb.m_size := by
              omega
            rw [heq3]
            rw [getD_append_right _ _ (by rw [contents_length]; omega)
              (by rw [contents_length]; simp; omega), contents_length]
            exact (getD_take data hj (by omega)).symm

theorem read_spec (rb : RingBuffer) (sz0 : Nat) (n : Nat)
    (hwf : rb.WF) (hn : n = min sz0 rb.m_size) :
    (rb.read sz0).2.2 = n ∧
    (rb.read sz0).1.m_head = (rb.m_head + n) % rb.m_capacity ∧
    (rb.read sz0).1.m_tail = rb.m_tail ∧
    (rb.read sz0).1.m_capacity = rb.m_capacity ∧
    (rb.read sz0).1.m_buff = rb.m_buff ∧
    (rb.read sz0).1.m_size = rb.m_size - n ∧
    (rb.read sz0).1.WF ∧
    (rb.read sz0).2.1 = rb.contents.take n ∧
    (rb.read sz0).1.contents = rb.contents.drop n := by
  obtain ⟨hb, hszc, hh, ht, htl⟩ := hwf
  have hcap : 0 < rb.m_capacity := by omega
  by_cases hs : sz0 = 0
  · subst hs
    have hn0 : n = 0 := by simpa using hn
    subst hn0
    have hread0 : rb.read 0 = (rb, [], 0) := by simp [RingBuffer.read]
    rw [hread0]
    exact ⟨rfl, by rw [Nat.add_zero, Nat.mod_eq_of_lt hh], rfl, rfl, rfl,
      by show rb.m_size = rb.m_size - 0; omega,
      ⟨hb, hszc, hh, ht, htl⟩, by simp, by simp⟩
  · have hns : n ≤ rb.m_size := by omega
    have hwf2 : ∀ hd2 : Nat, hd2 = (rb.m_head + n) % rb.m_capacity →
        (RingBuffer.mk hd2 rb.m_tail (rb.m_size - n) rb.m_capacity rb.m_buff).WF := by
      intro hd2 hhd2
      refine ⟨hb, by show rb.m_size - n ≤ rb.m_capacity; omega,
        by show hd2 < rb.m_capacity; rw [hhd2]; exact Nat.mod_lt _ hcap, ht, ?_⟩
      show rb.m_tail = (hd2 + (rb.m_size - n)) % rb.m_capacity
      rw [hhd2, Nat.mod_add_mod, htl]
      congr 1
      omega
    have hcd : ∀ hd2 : Nat, hd2 = (rb.m_head + n) % rb.m_capacity →
        (RingBuffer.mk hd2 rb.m_tail (rb.m_size - n) rb.m_capacity rb.m_buff).contents
          = rb.contents.drop n := by
      intro hd2 hhd2
      apply eq_of_getD
      · rw [contents_mk_length]
        simp [contents_length]
      · intro i hi
        rw [contents_mk_length] at hi
        rw [contents_mk_getD _ _ _ _ _ hi, hhd2, Nat.mod_add_mod]
        rw [getD_drop _ (by rw [contents_length]; omega),
          contents_getD rb (by omega : n + i < rb.m_size)]
        congr 2
        omega
    by_cases hbr : min sz0 rb.m_size ≤ rb.m_capacity - rb.m_head
    · rw [read_eq_one rb sz0 hs hbr, ← hn]
      have hbr' : n ≤ rb.m_capacity - rb.m_head := by omega
      have hhead2 : (if rb.m_head + n = rb.m_capacity then 0 else rb.m_head + n)
          = (rb.m_head + n) % rb.m_capacity := by
        by_cases he : rb.m_head + n = rb.m_capacity
        · rw [if_pos he, he, Nat.mod_self]
        · rw [if_neg he, Nat.mod_eq_of_lt (by omega)]
      refine ⟨rfl, hhead2, rfl, rfl, rfl, rfl, hwf2 _ hhead2, ?_, hcd _ hhead2⟩
      -- the bytes copied out are the first n logical bytes
      apply eq_of_getD
      · simp [contents_length]
        omega
      · intro i hi
        have hi2 : i < n := by simp at hi; omega
        rw [getD_take _ hi2 (by simp; omega), getD_drop _ (by omega),
          getD_take _ hi2 (by rw [contents_length]; omega),
          contents_getD rb (by omega)]
        rw [Nat.mod_eq_of_lt (by omega)]
    · rw [read_eq_two rb sz0 hs hbr, ← hn]
      have hbr2 : rb.m_capacity - rb.m_head < n := by omega
      have hhead2 : n - (rb.m_capacity - rb.m_head)
          = (rb.m_head + n) % rb.m_capacity := by
        rw [Nat.mod_eq_sub_mod (by omega), Nat.mod_eq_of_lt (by omega)]
        omega
      refine ⟨rfl, hhead2, rfl, rfl, rfl, rfl, hwf2 _ hhead2, ?_, hcd _ hhead2⟩
      apply eq_of_getD
      · simp [contents_length]
        omega
      · intro i hi
        have hilen : i < rb.m_capacity - rb.m_head + (n - (rb.m_capacity - rb.m_head)) := by
          simp at hi
          omega
        have hi2 : i < n := by omega
        rw [getD_take _ hi2 (by rw [contents_length]; omega),
          contents_getD rb (by omega)]
        by_cases hj1 : i < rb.m_capacity - rb.m_head
        · rw [getD_append_left _ _ (by simp; omega),
            getD_take _ hj1 (by simp; omega), getD_drop _ (by omega),
            Nat.mod_eq_of_lt (by omega)]
        · rw [getD_append_right _ _ (by simp; omega) (by simp; omega)]
          have hlen1 : ((rb.m_buff.drop rb.m_head).take
              (rb.m_capacity - rb.m_head)).length = rb.m_capacity - rb.m_head := by
            simp
            omega
          rw [hlen1, getD_take _ (by omega : i - (rb.m_capacity - rb.m_head)
              < n - (rb.m_capacity - rb.m_head)) (by omega)]
          have hmod : (rb.m_head + i) % rb.m_capacity
              = i - (rb.m_capacity - rb.m_head) := by
            rw [Nat.mod_eq_sub_mod (by omega), Nat.mod_eq_of_lt (by omega)]
            omega
          rw [hmod]

lemma write_zero (rb : RingBuffer) (data : List Nat) :
    rb.write data 0 = (rb, 0) := by
  simp [RingBuffer.write]

lemma write_full (rb : RingBuffer) (data : List Nat) (sz0 : Nat)
    (hs : ¬ sz0 = 0) (ha : rb.m_capacity - rb.m_size = 0) :
    rb.write data sz0 = (rb, RingBufferErrOutOfSpace) := by
  simp only [RingBuffer.write, if_neg hs, if_pos ha]

lemma write_capacity (rb : RingBuffer) (data : List Nat) (sz0 : Nat) :
    (rb.write data sz0).1.m_capacity = rb.m_capacity := by
  by_cases hs : sz0 = 0
  · rw [hs, write_zero]
  · by_cases ha : rb.m_capacity - rb.m_size = 0
    · rw [write_full rb data sz0 hs ha]
    · by_cases hbr : min sz0 (rb.m_capacity - rb.m_size) ≤ rb.m_capacity - rb.m_tail
      · rw [write_eq_one rb data sz0 hs ha hbr]
      · rw [write_eq_two rb data sz0 hs ha hbr]

lemma read_zero (rb : RingBuffer) : rb.read 0 = (rb, [], 0) := by
  simp [RingBuffer.read]

lemma read_capacity (rb : RingBuffer) (sz0 : Nat) :
    (rb.read sz0).1.m_capacity = rb.m_capacity := by
  by_cases hs : sz0 = 0
  · rw [hs, read_zero]
  · by_cases hbr : min sz0 rb.m_size ≤ rb.m_capacity - rb.m_head
    · rw [read_eq_one rb sz0 hs hbr]
    · rw [read_eq_two rb sz0 hs hbr]

lemma write_preserves_WF (rb : RingBuffer) (data : List Nat) (sz0 : Nat)
    (hwf : rb.WF) (hd : sz0 ≤ data.length) : (rb.write data sz0).1.WF := by
  by_cases hs : sz0 = 0
  · rw [hs, write_zero]; exact hwf
  · by_cases ha : rb.m_capacity - rb.m_size = 0
    · rw [write_full rb data sz0 hs ha]; exact hwf
    · exact (write_spec rb data sz0 _ hwf (by omega) (by omega) hd rfl).2.2.2.2.2.2.1

lemma read_preserves_WF (rb : RingBuffer) (sz0 : Nat) (hwf : rb.WF) :
    (rb.read sz0).1.WF :=
  (read_spec rb sz0 _ hwf rfl).2.2.2.2.2.2.1

lemma write_fits (rb : RingBuffer) (data : List Nat) (sz0 : Nat) (hwf : rb.WF)
    (hfit : sz0 ≤ rb.m_capacity - rb.m_size) (hd : sz0 ≤ data.length) :
    (rb.write data sz0).1.WF ∧
    (rb.write data sz0).1.contents = rb.contents ++ data.take sz0 := by
  by_cases hs : sz0 = 0
  · rw [hs, write_zero]
    exact ⟨hwf, by simp⟩
  · have hmin : sz0 = min sz0 (rb.m_capacity - rb.m_size) := by omega
    have h := write_spec rb data sz0 sz0 hwf (by omega) (by omega) hd hmin
    exact ⟨h.2.2.2.2.2.2.1, h.2.2.2.2.2.2.2⟩

lemma reachable_WF (rb : RingBuffer) (h : Reachable rb) :
    0 < rb.m_capacity → rb.WF := by
  induction h with
  | init capacity rb h =>
    unfold RingBuffer.create at h
    by_cases hc : RingBufferMaxSize ≤ capacity
    · rw [if_pos hc] at h
      exact absurd h (by simp)
    · rw [if_neg hc] at h
      injection h with h2
      subst h2
      intro hpos
      refine ⟨by simp, ?_, hpos, hpos, by simp⟩
      show (0 : Nat) ≤ capacity
      omega
  | wstep rb data sz0 h hd ih =>
    intro hpos
    rw [write_capacity] at hpos
    exact write_preserves_WF rb data sz0 (ih hpos) hd
  | rstep rb sz0 h ih =>
    intro hpos
    rw [read_capacity] at hpos
    exact read_preserves_WF rb sz0 (ih hpos)

lemma runOps_fifo (ops : List RBOp) (rb : RingBuffer) (hwf : rb.WF)
    (hfits : fitsAll rb ops = true) :
    (runOps rb ops).1.WF ∧
    (runOps rb ops).2.2 ++ (runOps rb ops).1.contents
      = rb.contents ++ (runOps rb ops).2.1 := by
  induction ops generalizing rb with
  | nil =>
    refine ⟨hwf, ?_⟩
    simp [runOps]
  | cons op ops ih =>
    cases op with
    | wr data sz0 =>
      simp only [fitsAll, Bool.and_eq_true, decide_eq_true_eq] at hfits
      obtain ⟨⟨hd, hfit⟩, hrest⟩ := hfits
      have hw := write_fits rb data sz0 hwf hfit hd
      have hrun := ih (rb.write data sz0).1 hw.1 hrest
      simp only [runOps]
      refine ⟨hrun.1, ?_⟩
      rw [hrun.2, hw.2, List.append_assoc]
    | rd sz0 =>
      simp only [fitsAll] at hfits
      have hr := read_spec rb sz0 _ hwf rfl
      have hrun := ih (rb.read sz0).1 hr.2.2.2.2.2.2.1 hfits
      simp only [runOps]
      refine ⟨hrun.1, ?_⟩
      rw [List.append_assoc, hrun.2, hr.2.2.2.2.2.2.2.2, hr.2.2.2.2.2.2.2.1,
        ← List.append_assoc, List.take_append_drop]

lemma maxsize_lt_err : RingBufferMaxSize < RingBufferErrOutOfSpace := by
  unfold RingBufferMaxSize RingBufferErrOutOfSpace
  norm_num

lemma write_ret (rb : RingBuffer) (data : List Nat) (sz0 : Nat) :
    (rb.write data sz0).2 =
      if sz0 = 0 then 0
      else if rb.m_capacity - rb.m_size = 0 then RingBufferErrOutOfSpace
      else min sz0 (rb.m_capacity - rb.m_size) := by
  by_cases hs : sz0 = 0
  · rw [hs, write_zero, if_pos rfl]
  · rw [if_neg hs]
    by_cases ha : rb.m_capacity - rb.m_size = 0
    · rw [write_full rb data sz0 hs ha, if_pos ha]
    · rw [if_neg ha]
      by_cases hbr : min sz0 (rb.m_capacity - rb.m_size) ≤ rb.m_capacity - rb.m_tail
      · rw [write_eq_one rb data sz0 hs ha hbr]
      · rw [write_eq_two rb data sz0 hs ha hbr]

/-- C1: on a full buffer (remaining capacity 0) a write request of `sz0 > 0`
bytes returns the distinguished no-space sentinel RingBufferErrOutOfSpace,
which exceeds every possible byte count for a buffer whose capacity obeys
the constructor bound; it copies no bytes and leaves head, tail, size and
the stored bytes unchanged. -/
theorem c1_write_full_rejected (rb : RingBuffer) (data : List Nat) (sz0 : Nat)
    (hfull : rb.m_size = rb.m_capacity) (hs : 0 < sz0)
    (hcap : rb.m_capacity < RingBufferMaxSize) :
    rb.write data sz0 = (rb, RingBufferErrOutOfSpace) ∧
    (∀ k, k ≤ rb.m_capacity → k ≠ RingBufferErrOutOfSpace) ∧
    (rb.write data sz0).1.m_head = rb.m_head ∧
    (rb.write data sz0).1.m_tail = rb.m_tail ∧
    (rb.write data sz0).1.m_size = rb.m_size ∧
    (rb.write data sz0).1.m_buff = rb.m_buff := by
  have h := write_full rb data sz0 (by omega) (by omega)
  have hml := maxsize_lt_err
  refine ⟨h, ?_, by rw [h], by rw [h], by rw [h], by rw [h]⟩
  intro k hk
  omega

theorem c1_witness :
    (RingBuffer.mk 0 0 2 2 [7, 7]).write [5] 1
      = (RingBuffer.mk 0 0 2 2 [7, 7], RingBufferErrOutOfSpace) :=
  (c1_write_full_rejected (RingBuffer.mk 0 0 2 2 [7, 7]) [5] 1 rfl (by decide)
    (by decide)).1

/-- C2: `write` returns the sentinel RingBufferErrOutOfSpace exactly when
`sz0 > 0` and the buffer is full; otherwise it returns the number of bytes
copied, at most `min sz0 (capacity - size)`; the constructor enforces
`capacity < RingBufferMaxSize`, so the sentinel can never coincide with a
valid byte count; and a zero-length write on a full buffer returns 0, not
the sentinel. -/
theorem c2_sentinel_iff (rb : RingBuffer) (data : List Nat) (sz0 : Nat)
    (hcap : rb.m_capacity < RingBufferMaxSize) (hsz : rb.m_size ≤ rb.m_capacity) :
    ((rb.write data sz0).2 = RingBufferErrOutOfSpace
      ↔ 0 < sz0 ∧ rb.m_size = rb.m_capacity) ∧
    (¬ (0 < sz0 ∧ rb.m_size = rb.m_capacity) →
      (rb.write data sz0).2
        = if sz0 = 0 then 0 else min sz0 (rb.m_capacity - rb.m_size)) ∧
    ((rb.write data sz0).2 ≠ RingBufferErrOutOfSpace →
      (rb.write data sz0).2 ≤ min sz0 (rb.m_capacity - rb.m_size)) ∧
    (rb.m_size = rb.m_capacity → (rb.write data 0).2 = 0) ∧
    (∀ c rb2, RingBuffer.create c = Except.ok rb2 →
      rb2.m_capacity < RingBufferMaxSize) := by
  have hml := maxsize_lt_err
  have hiff : (rb.write data sz0).2 = RingBufferErrOutOfSpace
      ↔ 0 < sz0 ∧ rb.m_size = rb.m_capacity := by
    rw [write_ret]
    split_ifs with h1 h2 <;> constructor <;> intro h <;> omega
  have hval : ¬ (0 < sz0 ∧ rb.m_size = rb.m_capacity) →
      (rb.write data sz0).2
        = if sz0 = 0 then 0 else min sz0 (rb.m_capacity - rb.m_size) := by
    intro hno
    rw [write_ret]
    split_ifs with h1 h2 <;> omega
  refine ⟨hiff, hval, ?_, fun _ => by rw [write_zero], ?_⟩
  · intro hne
    have hno : ¬ (0 < sz0 ∧ rb.m_size = rb.m_capacity) := fun hcon =>
      hne (hiff.mpr hcon)
    rw [hval hno]
    split_ifs with h1 <;> omega
  · intro c rb2 h
    unfold RingBuffer.create at h
    by_cases hc : RingBufferMaxSize ≤ c
    · rw [if_pos hc] at h
      exact absurd h (by simp)
    · rw [if_neg hc] at h
      injection h with h2
      subst h2
      show c < RingBufferMaxSize
      omega

theorem c2_witness :
    (RingBuffer.mk 0 0 1 3 [7, 7, 7]).m_capacity < RingBufferMaxSize ∧
    (((RingBuffer.mk 0 0 1 3 [7, 7, 7]).write [1, 2] 2).2
        = RingBufferErrOutOfSpace
      ↔ 0 < 2 ∧ (RingBuffer.mk 0 0 1 3 [7, 7, 7]).m_size
          = (RingBuffer.mk 0 0 1 3 [7, 7, 7]).m_capacity) :=
  ⟨by decide,
    (c2_sentinel_iff (RingBuffer.mk 0 0 1 3 [7, 7, 7]) [1, 2] 2 (by decide)
      (by decide)).1⟩

/-- C4: on a buffer with free space, a write of `sz0 > 0` bytes copies
exactly `n = min sz0 (capacity - size)` leading bytes of `data` into the
storage starting at `tail` (wrapping around the physical end where needed),
advances `tail` to `(tail + n) mod capacity`, increases `size` by `n`,
leaves `head` and the storage length unchanged (never grows), and
returns `n`. -/
theorem c4_write_behaviour (rb : RingBuffer) (data : List Nat) (sz0 n : Nat)
    (hwf : rb.WF) (ha : 0 < rb.avail) (hs : 0 < sz0) (hd : sz0 ≤ data.length)
    (hn : n = min sz0 (rb.m_capacity - rb.m_size)) :
    (rb.write data sz0).2 = n ∧
    (rb.write data sz0).1.contents = rb.contents ++ data.take n ∧
    (rb.write data sz0).1.m_tail = (rb.m_tail + n) % rb.m_capacity ∧
    (rb.write data sz0).1.m_size = rb.m_size + n ∧
    (rb.write data sz0).1.m_head = rb.m_head ∧
    (rb.write data sz0).1.m_capacity = rb.m_capacity ∧
    (rb.write data sz0).1.m_buff.length = rb.m_buff.length ∧
    (∀ j, j < n →
      (rb.write data sz0).1.m_buff.getD ((rb.m_tail + j) % rb.m_capacity) 0
        = data.getD j 0) := by
  have havail : 0 < rb.m_capacity - rb.m_size := ha
  have h := write_spec rb data sz0 n hwf hs havail hd hn
  obtain ⟨hb, hszc, hh, ht, htl⟩ := hwf
  refine ⟨h.1, h.2.2.2.2.2.2.2, h.2.2.2.1, h.2.2.2.2.1, h.2.1, h.2.2.1,
    h.2.2.2.2.2.1, ?_⟩
  intro j hj
  have hnd : n ≤ data.length := by omega
  have hgd := congrArg (fun l => l.getD (rb.m_size + j) 0) h.2.2.2.2.2.2.2
  simp only [] at hgd
  rw [contents_getD _ (by rw [h.2.2.2.2.1]; omega)] at hgd
  rw [getD_append_right _ _ (by rw [contents_length]; omega)
      (by rw [contents_length]; simp; omega), contents_length] at hgd
  have hsub : rb.m_size + j - rb.m_size = j := by omega
  rw [hsub, getD_take data hj (by omega)] at hgd
  rw [h.2.1, h.2.2.1] at hgd
  have hpos : (rb.m_head + (rb.m_size + j)) % rb.m_capacity
      = (rb.m_tail + j) % rb.m_capacity := by
    rw [htl, Nat.mod_add_mod, Nat.add_assoc]
  rw [hpos] at hgd
  exact hgd

theorem c4_witness :
    (RingBuffer.mk 8 8 0 10 (List.replicate 10 0)).WF ∧
    ((RingBuffer.mk 8 8 0 10 (List.replicate 10 0)).write [1, 2, 3, 4, 5] 5).2 = 5 ∧
    ((RingBuffer.mk 8 8 0 10 (List.replicate 10 0)).write
        [1, 2, 3, 4, 5] 5).1.m_tail = (8 + 5) % 10 :=
  ⟨by decide,
    (c4_write_behaviour (RingBuffer.mk 8 8 0 10 (List.replicate 10 0))
      [1, 2, 3, 4, 5] 5 5 (by decide) (by decide) (by decide) (by decide)
      (by decide)).1,
    (c4_write_behaviour (RingBuffer.mk 8 8 0 10 (List.replicate 10 0))
      [1, 2, 3, 4, 5] 5 5 (by decide) (by decide) (by decide) (by decide)
      (by decide)).2.2.1⟩

/-- C5: `read` copies out exactly `n = min sz0 size` bytes, namely the first
`n` logical bytes starting at `head` (with the same wrap-around handling as
`write`), advances `head` to `(head + n) mod capacity`, decreases `size` by
`n`, and returns `n`; in particular it returns 0 on an empty buffer and 0
for a zero-length request. -/
theorem c5_read_behaviour (rb : RingBuffer) (sz0 n : Nat)
    (hwf : rb.WF) (hn : n = min sz0 rb.m_size) :
    (rb.read sz0).2.2 = n ∧
    (rb.read sz0).2.1 = rb.contents.take n ∧
    (rb.read sz0).1.m_head = (rb.m_head + n) % rb.m_capacity ∧
    (rb.read sz0).1.m_size = rb.m_size - n ∧
    (rb.read sz0).1.contents = rb.contents.drop n ∧
    (rb.read sz0).1.m_tail = rb.m_tail ∧
    (rb.read sz0).1.m_capacity = rb.m_capacity ∧
    (rb.read sz0).1.m_buff = rb.m_buff ∧
    (rb.m_size = 0 → (rb.read sz0).2.2 = 0) ∧
    (sz0 = 0 → (rb.read sz0).2.2 = 0) := by
  have h := read_spec rb sz0 n hwf hn
  exact ⟨h.1, h.2.2.2.2.2.2.2.1, h.2.1, h.2.2.2.2.2.1, h.2.2.2.2.2.2.2.2,
    h.2.2.1, h.2.2.2.1, h.2.2.2.2.1, fun he => by rw [h.1]; omega,
    fun he => by rw [h.1]; omega⟩

theorem c5_witness :
    (RingBuffer.mk 8 3 5 10 [3, 4, 5, 0, 0, 0, 0, 0, 1, 2]).WF ∧
    ((RingBuffer.mk 8 3 5 10 [3, 4, 5, 0, 0, 0, 0, 0, 1, 2]).read 5).2.2 = 5 ∧
    ((RingBuffer.mk 8 3 5 10 [3, 4, 5, 0, 0, 0, 0, 0, 1, 2]).read 5).2.1
      = (RingBuffer.mk 8 3 5 10 [3, 4, 5, 0, 0, 0, 0, 0, 1, 2]).contents.take 5 :=
  ⟨by decide,
    (c5_read_behaviour (RingBuffer.mk 8 3 5 10 [3, 4, 5, 0, 0, 0, 0, 0, 1, 2])
      5 5 (by decide) (by decide)).1,
    (c5_read_behaviour (RingBuffer.mk 8 3 5 10 [3, 4, 5, 0, 0, 0, 0, 0, 1, 2])
      5 5 (by decide) (by decide)).2.1⟩

/-- C3: over any interleaved sequence of write and read calls in which no
write overflows (each write's request fits in the space available at that
moment), the concatenated read output is a prefix of the concatenated
written bytes — the written stream equals the read stream followed by the
bytes still pending in the buffer; and a write of `n` bytes that fits
entirely into an empty buffer followed immediately by a read of `n` bytes
returns the identical byte sequence, including when the span wraps around
the physical end of storage. -/
theorem c3_fifo_roundtrip (rb : RingBuffer) (ops : List RBOp) (data : List Nat)
    (hwf : rb.WF) (hempty : rb.m_size = 0)
    (hfits : fitsAll rb ops = true)
    (hfit : data.length ≤ rb.m_capacity - rb.m_size) :
    (runOps rb ops).2.1
      = (runOps rb ops).2.2 ++ (runOps rb ops).1.contents ∧
    ((rb.write data data.length).1.read data.length).2.1 = data := by
  have hc0 : rb.contents = [] := by
    apply List.eq_nil_of_length_eq_zero
    rw [contents_length, hempty]
  constructor
  · have h := runOps_fifo ops rb hwf hfits
    have h2 := h.2
    rw [hc0, List.nil_append] at h2
    exact h2.symm
  · have hw := write_fits rb data data.length hwf hfit (le_refl _)
    have hcw : (rb.write data data.length).1.contents = data := by
      rw [hw.2, hc0, List.nil_append, List.take_length]
    have hsz2 : (rb.write data data.length).1.m_size = data.length := by
      rw [← contents_length, hcw]
    have hr := read_spec (rb.write data data.length).1 data.length
      data.length hw.1 (by rw [hsz2, Nat.min_self])
    rw [hr.2.2.2.2.2.2.2.1, hcw, List.take_length]

theorem c3_witness :
    fitsAll (RingBuffer.mk 8 8 0 10 (List.replicate 10 0))
      [RBOp.wr [1, 2, 3] 3, RBOp.rd 2, RBOp.wr [4, 5, 6, 7] 4, RBOp.rd 5]
      = true ∧
    (runOps (RingBuffer.mk 8 8 0 10 (List.replicate 10 0))
      [RBOp.wr [1, 2, 3] 3, RBOp.rd 2, RBOp.wr [4, 5, 6, 7] 4, RBOp.rd 5]).2.1
      = (runOps (RingBuffer.mk 8 8 0 10 (List.replicate 10 0))
          [RBOp.wr [1, 2, 3] 3, RBOp.rd 2, RBOp.wr [4, 5, 6, 7] 4, RBOp.rd 5]).2.2
        ++ (runOps (RingBuffer.mk 8 8 0 10 (List.replicate 10 0))
          [RBOp.wr [1, 2, 3] 3, RBOp.rd 2, RBOp.wr [4, 5, 6, 7] 4, RBOp.rd 5]).1.contents ∧
    (((RingBuffer.mk 8 8 0 10 (List.replicate 10 0)).write
        [9, 8, 7, 6, 5] 5).1.read 5).2.1 = [9, 8, 7, 6, 5] :=
  ⟨by decide,
    (c3_fifo_roundtrip (RingBuffer.mk 8 8 0 10 (List.replicate 10 0))
      [RBOp.wr [1, 2, 3] 3, RBOp.rd 2, RBOp.wr [4, 5, 6, 7] 4, RBOp.rd 5]
      [9, 8, 7, 6, 5] (by decide) (by decide) (by decide) (by decide)).1,
    (c3_fifo_roundtrip (RingBuffer.mk 8 8 0 10 (List.replicate 10 0))
      [RBOp.wr [1, 2, 3] 3, RBOp.rd 2, RBOp.wr [4, 5, 6, 7] 4, RBOp.rd 5]
      [9, 8, 7, 6, 5] (by decide) (by decide) (by decide) (by decide)).2⟩

/-- C6 counterexample: the constructor accepts capacity 0 (it only rejects
capacities at or above RingBufferMaxSize), so the freshly constructed
capacity-0 buffer is a reachable state, and for it `head` does not lie in
`[0, capacity)` — the claim fails as stated at capacity 0. -/
theorem c6_counterexample :
    RingBuffer.create 0 = Except.ok (RingBuffer.mk 0 0 0 0 []) ∧
    Reachable (RingBuffer.mk 0 0 0 0 []) ∧
    ¬ (RingBuffer.mk 0 0 0 0 []).m_head < (RingBuffer.mk 0 0 0 0 []).m_capacity :=
  ⟨by unfold RingBuffer.create; rw [if_neg (by decide)]; try rfl,
    Reachable.init 0 _ (by unfold RingBuffer.create; rw [if_neg (by decide)]; try rfl),
    by decide⟩

/-- C6 (amended): every state reachable from a freshly constructed buffer
of positive capacity by write and read calls satisfies the invariant:
`size ≤ capacity`, `head` and `tail` lie in `[0, capacity)`, `size` is
congruent to `tail - head` modulo `capacity`, and
`avail() + size() = capacity()`. -/
theorem c6_invariant (rb : RingBuffer) (h : Reachable rb)
    (hpos : 0 < rb.m_capacity) :
    rb.m_size ≤ rb.m_capacity ∧
    rb.m_head < rb.m_capacity ∧
    rb.m_tail < rb.m_capacity ∧
    (rb.m_size : Int) ≡ (rb.m_tail : Int) - (rb.m_head : Int)
      [ZMOD (rb.m_capacity : Int)] ∧
    rb.avail + rb.size = rb.capacity := by
  obtain ⟨hb, hszc, hh, ht, htl⟩ := reachable_WF rb h hpos
  refine ⟨hszc, hh, ht, ?_, ?_⟩
  · have h1 : (rb.m_tail : Int)
        = (((rb.m_head + rb.m_size) % rb.m_capacity : Nat) : Int) := by
      exact_mod_cast htl
    have h2 : (rb.m_tail : Int) ≡ (rb.m_head : Int) + (rb.m_size : Int)
        [ZMOD (rb.m_capacity : Int)] := by
      show (rb.m_tail : Int) % _ = _
      rw [h1]
      push_cast
      exact Int.emod_emod_of_dvd _ dvd_rfl
    have h3 := h2.sub_right (rb.m_head : Int)
    have h4 : (rb.m_head : Int) + (rb.m_size : Int) - (rb.m_head : Int)
        = (rb.m_size : Int) := by ring
    rw [h4] at h3
    exact h3.symm
  · unfold RingBuffer.avail RingBuffer.size RingBuffer.capacity
    omega

theorem c6_witness :
    Reachable (RingBuffer.mk 0 0 0 5 (List.replicate 5 0)) ∧
    0 < (RingBuffer.mk 0 0 0 5 (List.replicate 5 0)).m_capacity ∧
    (RingBuffer.mk 0 0 0 5 (List.replicate 5 0)).avail
        + (RingBuffer.mk 0 0 0 5 (List.replicate 5 0)).size
      = (RingBuffer.mk 0 0 0 5 (List.replicate 5 0)).capacity :=
  ⟨Reachable.init 5 _ (by unfold RingBuffer.create; rw [if_neg (by decide)]; try rfl),
    by decide,
    (c6_invariant (RingBuffer.mk 0 0 0 5 (List.replicate 5 0))
      (Reachable.init 5 _ (by unfold RingBuffer.create; rw [if_neg (by decide)]; try rfl))
      (by decide)).2.2.2.2⟩

/-- C7 counterexample: the claim says a requested capacity of zero fails
fast at construction time; in the code the constructor only rejects
capacities at or above RingBufferMaxSize, so constructing with capacity 0
succeeds and yields an object. -/
theorem c7_counterexample :
    RingBuffer.create 0 = Except.ok (RingBuffer.mk 0 0 0 0 []) := by
  unfold RingBuffer.create
  rw [if_neg (by decide)]
  rfl

/-- C7 (amended): constructing with a capacity at or above
RingBufferMaxSize fails fast at construction time with an error surfaced to
the caller and no object is created; every smaller capacity — including
zero — is accepted and yields a buffer with `head = tail = size = 0` and
exactly `capacity` bytes of internal storage.  (An allocation failure
raises an error as well; allocation is assumed to succeed in this model.) -/
theorem c7_create_behaviour (capacity : Nat) :
    (RingBufferMaxSize ≤ capacity →
      ∃ msg, RingBuffer.create capacity = Except.error msg) ∧
    (capacity < RingBufferMaxSize →
      RingBuffer.create capacity
        = Except.ok (RingBuffer.mk 0 0 0 capacity (List.replicate capacity 0))) ∧
    (∀ rb, RingBuffer.create capacity = Except.ok rb →
      rb.m_head = 0 ∧ rb.m_tail = 0 ∧ rb.m_size = 0 ∧
      rb.m_capacity = capacity ∧ rb.m_buff.length = capacity) := by
  unfold RingBuffer.create
  by_cases hc : RingBufferMaxSize ≤ capacity
  · rw [if_pos hc]
    exact ⟨fun _ => ⟨_, rfl⟩, fun h => absurd hc (by omega),
      fun rb h => absurd h (by simp)⟩
  · rw [if_neg hc]
    refine ⟨fun h => absurd h hc, fun _ => rfl, fun rb h => ?_⟩
    injection h with h2
    subst h2
    exact ⟨rfl, rfl, rfl, rfl, by simp⟩

theorem c7_witness :
    (3 < RingBufferMaxSize ∧
      RingBuffer.create 3
        = Except.ok (RingBuffer.mk 0 0 0 3 (List.replicate 3 0))) ∧
    (RingBufferMaxSize ≤ RingBufferMaxSize ∧
      ∃ msg, RingBuffer.create RingBufferMaxSize = Except.error msg) :=
  ⟨⟨by decide, (c7_create_behaviour 3).2.1 (by decide)⟩,
    ⟨le_refl _, (c7_create_behaviour RingBufferMaxSize).1 (le_refl _)⟩⟩

/-- C9: once the producer has stored true into the `done` flag, a call to
readFunction that finds the ring buffer empty returns 0 (the end-of-stream
indication for the avio layer) immediately instead of waiting on the
condition variable, leaving the buffer untouched. -/
theorem c9_eof_after_done (done : Bool) (buff : RingBuffer) (buf_size : Nat)
    (hdone : done = true) (hempty : buff.size = 0) :
    readFunction done buff buf_size = some (0, [], buff) := by
  subst hdone
  unfold readFunction
  rw [if_pos hempty, if_pos rfl]

theorem c9_witness :
    (RingBuffer.mk 2 2 0 4 [0, 0, 0, 0]).size = 0 ∧
    readFunction true (RingBuffer.mk 2 2 0 4 [0, 0, 0, 0]) 8
      = some (0, [], RingBuffer.mk 2 2 0 4 [0, 0, 0, 0]) :=
  ⟨by decide,
    c9_eof_after_done true (RingBuffer.mk 2 2 0 4 [0, 0, 0, 0]) 8 rfl (by decide)⟩

/-- C10: `str()` returns a string of exactly `capacity` bytes equal to the
entire internal storage, and `buf()` returns that same storage, both
independent of `head`, `tail` and `size` — they expose every storage
position, not only the `size` bytes logically held in the buffer. -/
theorem c10_str_buf (rb : RingBuffer) (hlen : rb.m_buff.length = rb.m_capacity) :
    rb.str.length = rb.capacity ∧
    rb.str = rb.m_buff ∧
    rb.buf = rb.m_buff ∧
    (∀ h t s, (RingBuffer.mk h t s rb.m_capacity rb.m_buff).str = rb.str ∧
      (RingBuffer.mk h t s rb.m_capacity rb.m_buff).buf = rb.buf) := by
  unfold RingBuffer.str RingBuffer.buf RingBuffer.capacity
  exact ⟨by simp [hlen], by rw [← hlen, List.take_length], rfl,
    fun h t s => ⟨rfl, rfl⟩⟩

theorem c10_witness :
    (RingBuffer.mk 1 2 1 3 [4, 5, 6]).m_buff.length
      = (RingBuffer.mk 1 2 1 3 [4, 5, 6]).m_capacity ∧
    (RingBuffer.mk 1 2 1 3 [4, 5, 6]).str = [4, 5, 6] :=
  ⟨by decide,
    (c10_str_buf (RingBuffer.mk 1 2 1 3 [4, 5, 6]) (by decide)).2.1⟩
